import Mathlib

/-!
Shallow embedding of the kunstlotteri ingestion-and-aggregation pipeline
(`src/app.py`).  Monetary amounts are modelled as rationals, spreadsheet
cells as strings, tables as lists of rows.  Python string helpers
(`strip`, `lower`, substring search, the two regular expressions) are
re-implemented structurally over `String.data` so that they are
executable and their behaviour can be settled on concrete inputs.
-/

namespace Kunstlotteri

/-! ## Python-style character and string helpers -/

/-- Whitespace class of Python's `str.strip` / regex `\s` (ASCII part). -/
def pyIsSpace (c : Char) : Bool :=
  c = ' ' || c = '\t' || c = '\n' || c = '\r' || c = '\x0b' || c = '\x0c'

/-- Word character class of the regex `\b` boundary (ASCII part of `\w`). -/
def isWordChar (c : Char) : Bool :=
  c.isAlphanum || c = '_'

/-- Case-insensitive character comparison, as used by `re.IGNORECASE`. -/
def lowEq (a b : Char) : Bool :=
  a.toLower = b.toLower

/-- Strip the pattern `pat` from the front of `cs`, case-insensitively,
returning the remainder on success.  Models matching a literal inside a
case-insensitive regex at a fixed position. -/
def ciStrip : List Char → List Char → Option (List Char)
  | [], cs => some cs
  | _ :: _, [] => none
  | p :: ps, c :: cs => if lowEq c p then ciStrip ps cs else none

/-- Whether `pat` occurs case-insensitively somewhere inside `cs`; models
`Series.str.contains(pat, case=False)` on a plain (non-regex) pattern. -/
def ciContainsL (pat : List Char) : List Char → Bool
  | [] => (ciStrip pat []).isSome
  | c :: cs => (ciStrip pat (c :: cs)).isSome || ciContainsL pat cs

/-- `ciContains s pat` models Python `pat.lower() in s.lower()`. -/
def ciContains (s pat : String) : Bool :=
  ciContainsL pat.data s.data

/-- Python `str.strip()` on a character list: drop whitespace from both
ends (trailing side first via a double reverse). -/
def pyStripList (cs : List Char) : List Char :=
  List.dropWhile pyIsSpace ((List.dropWhile pyIsSpace cs.reverse).reverse)

/-- Python `str.strip()`. -/
def pyStrip (s : String) : String :=
  ⟨pyStripList s.data⟩

/-- Python `str.lower()` (ASCII case folding). -/
def pyLower (s : String) : String :=
  ⟨s.data.map Char.toLower⟩

/-- Code-point lexicographic `≤` on character lists, as Python compares
strings. -/
def strLeL : List Char → List Char → Bool
  | [], _ => true
  | _ :: _, [] => false
  | a :: as, b :: bs => decide (a < b) || (decide (a = b) && strLeL as bs)

/-- Code-point lexicographic `<` on character lists. -/
def strLtL : List Char → List Char → Bool
  | [], [] => false
  | [], _ :: _ => true
  | _ :: _, [] => false
  | a :: as, b :: bs => decide (a < b) || (decide (a = b) && strLtL as bs)

/-- Python-style string `≤`. -/
def strLe (a b : String) : Bool :=
  strLeL a.data b.data

/-- Python-style string `<`. -/
def strLt (a b : String) : Bool :=
  strLtL a.data b.data

/-! ## Header Locator (`find_header_row`, `src/app.py` lines 16-22)

The marker test is `row.str.contains(r"\bSalgssted\b", case=False)`:
a case-insensitive whole-word search for "Salgssted" in each cell. -/

/-- Boundary test for the position before a `\b`-delimited match. -/
def boundaryBefore : Option Char → Bool
  | none => true
  | some c => !isWordChar c

/-- Boundary test for the position after a `\b`-delimited match. -/
def boundaryAfter : List Char → Bool
  | [] => true
  | c :: _ => !isWordChar c

/-- Scan `cs` for a case-insensitive whole-word occurrence of `pat`;
`prev` is the character just before the current position. -/
def wordSearchAux (pat : List Char) : Option Char → List Char → Bool
  | _, [] => false
  | prev, c :: cs =>
    (boundaryBefore prev &&
      (match ciStrip pat (c :: cs) with
        | some rest => boundaryAfter rest
        | none => false)) || wordSearchAux pat (some c) cs

/-- Whether a cell matches the regex `\bSalgssted\b` case-insensitively. -/
def cellHasMarker (s : String) : Bool :=
  wordSearchAux ("Salgssted").data none s.data

/-- Whether any cell of a raw row matches the marker (the `.any()` call). -/
def rowHasMarker (row : List String) : Bool :=
  row.any cellHasMarker

/-- The indexed scan inside `find_header_row`. -/
def findHeaderAux : List (List String) → Nat → Option Nat
  | [], _ => none
  | r :: rs, i => if rowHasMarker r then some i else findHeaderAux rs (i + 1)

/-- `find_header_row`: scan at most the first 200 rows of the raw grid and
return the index of the first row containing the marker, else `none`. -/
def find_header_row (raw : List (List String)) : Option Nat :=
  findHeaderAux (raw.take 200) 0

/-! ## Row Filter & Tagger (`BILDE_RE`, `extract_bilde`, lines 14, 57-61)

`BILDE_RE = re.compile(r"lodd\s*bilde\s*([A-Z])", re.IGNORECASE)`.
Since `b` and letters are never whitespace, the greedy `\s*` needs no
backtracking and the regex is equivalent to this maximal-munch matcher. -/

/-- One-letter capture after the optional whitespace: the tail of the
regex `\s*([A-Z])` with `re.IGNORECASE`, at the head of `cs`. -/
def letterAfterSpaces (cs : List Char) : Option Char :=
  match cs.dropWhile pyIsSpace with
  | [] => none
  | c :: _ => if c.isAlpha then some c else none

/-- Try to match `lodd\s*bilde\s*([A-Z])` (case-insensitively) starting
exactly at the head of `cs`, returning the captured letter. -/
def tryBildeAt (cs : List Char) : Option Char :=
  (ciStrip ("lodd").data cs).bind (fun r1 =>
    (ciStrip ("bilde").data (r1.dropWhile pyIsSpace)).bind (fun r2 =>
      letterAfterSpaces r2))

/-- `re.search` semantics for `BILDE_RE`: first position (left to right)
where the pattern matches. -/
def bildeSearch : List Char → Option Char
  | [] => none
  | c :: cs => (tryBildeAt (c :: cs)).orElse (fun _ => bildeSearch cs)

/-- `extract_bilde`: `None` on empty / "nan" input, else the captured
letter uppercased, or `None` when the pattern does not match. -/
def extract_bilde (s : String) : Option String :=
  if s = "" ∨ pyLower s = "nan" then none
  else (bildeSearch s.data).map (fun c => String.mk [c.toUpper])

/-- Modelled from the spec's words for claim C4 (the source regex is
`BILDE_RE`): the literal phrase "lodd bilde" followed by whitespace (at
least one character) then one letter.  Try at the head of `cs`. -/
def tryBildeSpecAt (cs : List Char) : Option Char :=
  match ciStrip ("lodd bilde").data cs with
  | none => none
  | some [] => none
  | some (c :: rest) =>
    if pyIsSpace c then
      match rest.dropWhile pyIsSpace with
      | [] => none
      | d :: _ => if d.isAlpha then some d else none
    else none

/-- Spec-side search for `tryBildeSpecAt` (claim C4's reading). -/
def bildeSpecSearch : List Char → Option Char
  | [] => none
  | c :: cs =>
    match tryBildeSpecAt (c :: cs) with
    | some r => some r
    | none => bildeSpecSearch cs

/-- Spec-side variant of `extract_bilde` following claim C4's words:
the phrase must be followed by actual whitespace before the letter. -/
def extract_bilde_spec (s : String) : Option String :=
  if s = "" ∨ pyLower s = "nan" then none
  else (bildeSpecSearch s.data).map (fun c => String.mk [c.toUpper])

/-! ## Name Resolver (`build_full_name`, lines 43-55) -/

/-- One normalized input row; fields are the stringified cell contents
(pandas renders missing values as the text "nan"), and the gross amount
as parsed by `pd.to_numeric(..., errors="coerce")` (`none` = NaN). -/
structure RawRow where
  salgssted : String
  transaksjonstype : String
  brutto : Option ℚ
  fornavn : String
  etternavn : String
  melding : String
deriving DecidableEq

/-- `build_full_name`: first name (plus last name when usable), else the
free-text message, else the sentinel "Ukjent". -/
def build_full_name (row : RawRow) : String :=
  let fn := pyStrip row.fornavn
  let en := pyStrip row.etternavn
  if fn ≠ "" ∧ pyLower fn ≠ "nan" then
    if en ≠ "" ∧ pyLower en ≠ "nan" then pyStrip (fn ++ " " ++ en) else fn
  else
    let msg := pyStrip row.melding
    if msg ≠ "" ∧ pyLower msg ≠ "nan" then msg else "Ukjent"

/-! ## Row filtering and tagging (lines 178-197) -/

/-- A filtered, tagged ticket row: artwork letter, resolved buyer name,
gross amount. -/
structure TicketRow where
  bilde : String
  navn : String
  brutto : ℚ
deriving DecidableEq

/-- The row filter (line 181-184): transaction type, trimmed and
lowercased, equals "salg", and the sale location contains "Lodd bilde"
case-insensitively. -/
def filterLoddRows (rows : List RawRow) : List RawRow :=
  rows.filter (fun r =>
    (pyLower (pyStrip r.transaksjonstype) = "salg" : Bool) &&
      ciContains r.salgssted ("Lodd bilde"))

/-- Tagging (lines 190-197): extract the artwork letter, drop rows where
extraction fails, coerce the gross amount (NaN becomes 0), resolve the
buyer name. -/
def tagRows (rows : List RawRow) : List TicketRow :=
  rows.filterMap (fun r =>
    (extract_bilde r.salgssted).map
      (fun b => ⟨b, build_full_name r, r.brutto.getD 0⟩))

/-! ## Aggregator (lines 204-219) -/

/-- One row of the aggregate table `agg`: key, summed gross, raw ticket
count `Lodd_raw`, and integer ticket count `Lodd`. -/
structure AggRow where
  bilde : String
  navn : String
  brutto : ℚ
  lodd_raw : ℚ
  lodd : ℤ
deriving DecidableEq

/-- Round half to even, the rounding used by `Series.round()` (NumPy). -/
def roundHalfEven (q : ℚ) : ℤ :=
  if q - ⌊q⌋ < 1 / 2 then ⌊q⌋
  else if 1 / 2 < q - ⌊q⌋ then ⌊q⌋ + 1
  else if Even ⌊q⌋ then ⌊q⌋ else ⌊q⌋ + 1

/-- First-occurrence duplicate removal (`seen` accumulates keys already
emitted); models the distinct group keys of `DataFrame.groupby`. -/
def dedupAux {α : Type} [DecidableEq α] : List α → List α → List α
  | _, [] => []
  | seen, k :: ks =>
    if k ∈ seen then dedupAux seen ks else k :: dedupAux (k :: seen) ks

/-- Distinct keys of a list, in order of first occurrence. -/
def dedupKeys {α : Type} [DecidableEq α] (l : List α) : List α :=
  dedupAux [] l

/-- Insertion step of insertion sort with a boolean comparator. -/
def insertLe {α : Type} (le : α → α → Bool) (x : α) : List α → List α
  | [] => [x]
  | y :: ys => if le x y then x :: y :: ys else y :: insertLe le x ys

/-- Insertion sort with a boolean comparator; models the deterministic
key-ordering of `groupby(sort=True)` and `sort_values` (all key tuples
occurring here are distinct, so any comparison sort yields this order). -/
def isort {α : Type} (le : α → α → Bool) : List α → List α
  | [] => []
  | x :: xs => insertLe le x (isort le xs)

/-- Lexicographic order on (Bilde, Navn) group keys. -/
def pairLe (k1 k2 : String × String) : Bool :=
  strLt k1.1 k2.1 || (decide (k1.1 = k2.1) && strLe k1.2 k2.2)

/-- Grouping key of a ticket row. -/
def keyOf (t : TicketRow) : String × String :=
  (t.bilde, t.navn)

/-- Summed gross amount of the group with key `k` (the `groupby` +
`sum` of lines 204-208). -/
def sumFor (ts : List TicketRow) (k : String × String) : ℚ :=
  ((ts.filter (fun t => decide (keyOf t = k))).map TicketRow.brutto).sum

/-- The aggregation of lines 204-217: group the ticket rows by
(Bilde, Navn), sum Brutto per group, divide by the unit price, then
floor (`round_down = true`) or round half-to-even. -/
def buildAgg (price : ℚ) (roundDown : Bool) (ts : List TicketRow) : List AggRow :=
  (isort pairLe (dedupKeys (ts.map keyOf))).map (fun k =>
    let s := sumFor ts k
    { bilde := k.1, navn := k.2, brutto := s, lodd_raw := s / price,
      lodd := if roundDown then ⌊s / price⌋ else roundHalfEven (s / price) })

/-- Python float `%` (sign of the divisor): `x - p * floor (x / p)`. -/
def pymod (x p : ℚ) : ℚ :=
  x - p * ⌊x / p⌋

/-- The `non_multiple` filter of line 219: groups whose summed gross is
not an exact multiple of the unit price (exact comparison). -/
def nonMultipleFor (price : ℚ) (agg : List AggRow) : List AggRow :=
  agg.filter (fun e => decide (pymod e.brutto price ≠ 0))

/-- Modelled from the spec's words for claim C7: the same flag computed
with the epsilon tolerance the claim describes (`abs(remainder) < 1e-6`
or `abs(remainder - unit_price) < 1e-6` counts as an exact multiple). -/
def epsNonMultipleFlag (s p : ℚ) : Bool :=
  !(decide (|pymod s p| < 1 / 1000000) || decide (|pymod s p - p| < 1 / 1000000))

/-! ## Presentation layer consumption (lines 244-302) -/

/-- Clamping of line 251: `max(int(x), 0)`. -/
def clampLodd (x : ℤ) : ℤ :=
  max x 0

/-- Sort key of line 248 (`sort_values(["Lodd", "Navn"],
ascending=[False, True])`), generalized over the integer key. -/
def zlexLe (f : AggRow → ℤ) (a b : AggRow) : Bool :=
  decide (f b < f a) || (decide (f a = f b) && strLe a.navn b.navn)

/-- Order used by the code: unclamped `Lodd` descending, name ascending. -/
def leU (a b : AggRow) : Bool :=
  zlexLe AggRow.lodd a b

/-- Order stated by the spec: clamped ticket count descending, name
ascending. -/
def leC (a b : AggRow) : Bool :=
  zlexLe (fun e => clampLodd e.lodd) a b

/-- The per-artwork slice `sub` of line 248: filter to one artwork and
sort by (Lodd desc, Navn asc). -/
def subFor (b : String) (agg : List AggRow) : List AggRow :=
  isort leU (agg.filter (fun e => decide (e.bilde = b)))

/-- Contribution of one aggregate row to the wheel list (lines 259-263):
the name repeated `Lodd_clamped` times, nothing when the clamp is 0. -/
def emitRow (e : AggRow) : List String :=
  List.replicate (clampLodd e.lodd).toNat e.navn

/-- The per-artwork wheel name list (lines 258-263). -/
def wheelNamesFor (b : String) (agg : List AggRow) : List String :=
  (subFor b agg).flatMap emitRow

/-- Newline join of line 265 (`"\n".join(wheel_names)`). -/
def joinNewline : List String → String
  | [] => ""
  | [x] => x
  | x :: xs => x ++ "\n" ++ joinNewline xs

/-- The copyable wheel text of line 265. -/
def wheelTextFor (b : String) (agg : List AggRow) : String :=
  joinNewline (wheelNamesFor b agg)

/-- Total clamped ticket count of line 253. -/
def totalLoddFor (b : String) (agg : List AggRow) : ℤ :=
  ((subFor b agg).map (fun e => clampLodd e.lodd)).sum

/-- Buyer count of line 254: entries with positive clamped count. -/
def buyersFor (b : String) (agg : List AggRow) : Nat :=
  (subFor b agg).countP (fun e => decide (0 < clampLodd e.lodd))

/-- Total gross of line 255. -/
def totalBruttoFor (b : String) (agg : List AggRow) : ℚ :=
  ((subFor b agg).map AggRow.brutto).sum

/-- The top-10 table of line 283: positive clamped count, first ten. -/
def top10For (b : String) (agg : List AggRow) : List AggRow :=
  ((subFor b agg).filter (fun e => decide (0 < clampLodd e.lodd))).take 10

/-! ## Pipeline with schema check (lines 165-219) -/

/-- Terminal error taxonomy of the pipeline (spec section 7). -/
inductive AppError : Type
  | formatError : AppError
  | schemaError : List String → AppError
  | emptyResult : AppError
deriving DecidableEq

/-- Required columns (line 171). -/
def requiredCols : List String :=
  ["Salgssted", "Transaksjonstype", "Brutto"]

/-- The missing-column computation of line 172. -/
def missingCols (cols : List String) : List String :=
  requiredCols.filter (fun c => !(cols.contains c))

/-- The pipeline from the normalized table to the aggregate table
(lines 171-217): schema check, row filter, empty-result check, tagging,
aggregation.  An `Except.error` models `st.error`/`st.stop`: no
aggregate output is produced. -/
def runPipeline (price : ℚ) (roundDown : Bool) (cols : List String)
    (rows : List RawRow) : Except AppError (List AggRow) :=
  if missingCols cols ≠ [] then .error (.schemaError (missingCols cols))
  else
    let loddRows := filterLoddRows rows
    if loddRows = [] then .error .emptyResult
    else .ok (buildAgg price roundDown (tagRows loddRows))

/-! ## Generic list and sorting lemmas -/

theorem perm_insertLe {α : Type} (le : α → α → Bool) (x : α) :
    ∀ l : List α, (insertLe le x l).Perm (x :: l)
  | [] => .refl _
  | y :: ys => by
    cases h : le x y with
    | true => simp [insertLe, h]
    | false =>
      simp only [insertLe, h, Bool.false_eq_true, if_false]
      exact ((perm_insertLe le x ys).cons y).trans (List.Perm.swap x y ys)

theorem perm_isort {α : Type} (le : α → α → Bool) :
    ∀ l : List α, (isort le l).Perm l
  | [] => .refl _
  | x :: xs =>
    (perm_insertLe le x (isort le xs)).trans ((perm_isort le xs).cons x)

theorem mem_isort {α : Type} (le : α → α → Bool) (l : List α) (a : α) :
    a ∈ isort le l ↔ a ∈ l :=
  (perm_isort le l).mem_iff

theorem insertLe_all {α : Type} (le : α → α → Bool) (x : α) (t : List α)
    (h : ∀ z ∈ t, le x z = true) : insertLe le x t = x :: t := by
  cases t with
  | nil => rfl
  | cons y ys => simp [insertLe, h y (by simp)]

theorem pairwise_insertLe {α : Type} (le : α → α → Bool)
    (htot : ∀ a b, le a b = true ∨ le b a = true)
    (htr : ∀ a b c, le a b = true → le b c = true → le a c = true)
    (x : α) (l : List α) (hl : l.Pairwise (fun a b => le a b = true)) :
    (insertLe le x l).Pairwise (fun a b => le a b = true) := by
  induction l with
  | nil => simp [insertLe]
  | cons y ys ih =>
    rcases List.pairwise_cons.mp hl with ⟨hy, hys⟩
    by_cases hxy : le x y = true
    · simp only [insertLe, hxy, if_true]
      refine List.pairwise_cons.mpr ⟨?_, hl⟩
      intro z hz
      rcases List.mem_cons.mp hz with rfl | hz
      · exact hxy
      · exact htr x y z hxy (hy z hz)
    · simp only [insertLe, hxy, if_false]
      refine List.pairwise_cons.mpr ⟨?_, ih hys⟩
      intro z hz
      have hm : z ∈ x :: ys := (perm_insertLe le x ys).mem_iff.mp hz
      rcases List.mem_cons.mp hm with rfl | hz2
      · rcases htot z y with h | h
        · exact absurd h hxy
        · exact h
      · exact hy z hz2

theorem pairwise_isort {α : Type} (le : α → α → Bool)
    (htot : ∀ a b, le a b = true ∨ le b a = true)
    (htr : ∀ a b c, le a b = true → le b c = true → le a c = true) :
    ∀ l : List α, (isort le l).Pairwise (fun a b => le a b = true)
  | [] => by simp [isort]
  | x :: xs =>
    pairwise_insertLe le htot htr x (isort le xs)
      (pairwise_isort le htot htr xs)

theorem filter_insertLe {α : Type} (le : α → α → Bool)
    (htr : ∀ a b c, le a b = true → le b c = true → le a c = true)
    (p : α → Bool) (x : α) :
    ∀ s : List α, s.Pairwise (fun a b => le a b = true) →
      (insertLe le x s).filter p =
        if p x then insertLe le x (s.filter p) else s.filter p := by
  intro s
  induction s with
  | nil =>
    intro _
    cases hpx : p x <;> simp [insertLe, List.filter, hpx]
  | cons y ys ih =>
    intro hs
    rcases List.pairwise_cons.mp hs with ⟨hy, hys⟩
    cases hxy : le x y with
    | true =>
      cases hpx : p x with
      | true =>
        cases hpy : p y with
        | true => simp [insertLe, hxy, hpx, hpy, List.filter_cons]
        | false =>
          simp only [insertLe, hxy, if_true, List.filter_cons, hpx, hpy,
            Bool.false_eq_true, if_false, if_true]
          refine (insertLe_all le x (ys.filter p) ?_).symm
          intro z hz
          exact htr x y z hxy (hy z (List.mem_of_mem_filter hz))
      | false => simp [insertLe, hxy, hpx, List.filter_cons]
    | false =>
      have ihs := ih hys
      cases hpx : p x with
      | true =>
        cases hpy : p y with
        | true =>
          simp only [insertLe, hxy, Bool.false_eq_true, if_false,
            List.filter_cons, hpy, if_true, ihs, hpx]
        | false =>
          simp only [insertLe, hxy, Bool.false_eq_true, if_false,
            List.filter_cons, hpy, ihs, hpx, if_true]
      | false =>
        cases hpy : p y with
        | true =>
          simp only [insertLe, hxy, Bool.false_eq_true, if_false,
            List.filter_cons, hpy, if_true, ihs, hpx]
        | false =>
          simp only [insertLe, hxy, Bool.false_eq_true, if_false,
            List.filter_cons, hpy, ihs, hpx]

theorem filter_isort {α : Type} (le : α → α → Bool)
    (htot : ∀ a b, le a b = true ∨ le b a = true)
    (htr : ∀ a b c, le a b = true → le b c = true → le a c = true)
    (p : α → Bool) :
    ∀ l : List α, (isort le l).filter p = isort le (l.filter p)
  | [] => rfl
  | x :: xs => by
    have ih := filter_isort le htot htr p xs
    show (insertLe le x (isort le xs)).filter p = isort le ((x :: xs).filter p)
    rw [filter_insertLe le htr p x (isort le xs) (pairwise_isort le htot htr xs), ih]
    by_cases hpx : p x = true
    · rw [if_pos hpx, List.filter_cons_of_pos hpx]
      rfl
    · rw [if_neg (by simp [hpx]), List.filter_cons_of_neg (by simp [hpx])]

theorem insertLe_congr {α : Type} (le1 le2 : α → α → Bool) (x : α) :
    ∀ l : List α, (∀ b ∈ l, le1 x b = le2 x b) →
      insertLe le1 x l = insertLe le2 x l
  | [], _ => rfl
  | y :: ys, h => by
    have hy : le1 x y = le2 x y := h y (by simp)
    by_cases hxy : le2 x y = true
    · simp [insertLe, hxy, hy ▸ hxy]
    · have h1 : ¬ le1 x y = true := by rw [hy]; exact hxy
      simp only [insertLe, h1, hxy, if_false]
      rw [insertLe_congr le1 le2 x ys (fun b hb => h b (by simp [hb]))]

theorem isort_congr {α : Type} (le1 le2 : α → α → Bool) :
    ∀ l : List α, (∀ a ∈ l, ∀ b ∈ l, le1 a b = le2 a b) →
      isort le1 l = isort le2 l
  | [], _ => rfl
  | x :: xs, h => by
    show insertLe le1 x (isort le1 xs) = insertLe le2 x (isort le2 xs)
    rw [isort_congr le1 le2 xs (fun a ha b hb => h a (by simp [ha]) b (by simp [hb]))]
    exact insertLe_congr le1 le2 x (isort le2 xs)
      (fun b hb => h x (by simp) b (by simp [(mem_isort le2 xs b).mp hb]))

theorem flatMap_filter_of_nil {α β : Type} (f : α → List β) (p : α → Bool)
    (hf : ∀ a, p a = false → f a = []) :
    ∀ l : List α, l.flatMap f = (l.filter p).flatMap f
  | [] => rfl
  | a :: l => by
    by_cases hpa : p a = true
    · rw [List.filter_cons_of_pos hpa, List.flatMap_cons, List.flatMap_cons,
        flatMap_filter_of_nil f p hf l]
    · rw [List.filter_cons_of_neg (by simp [hpa]), List.flatMap_cons,
        hf a (by simpa using hpa), List.nil_append,
        flatMap_filter_of_nil f p hf l]

/-! ## Totality and transitivity of the comparison orders -/

theorem strLeL_total : ∀ a b : List Char, strLeL a b = true ∨ strLeL b a = true
  | [], _ => Or.inl (by simp [strLeL])
  | _ :: _, [] => Or.inr (by simp [strLeL])
  | x :: xs, y :: ys => by
    rcases lt_trichotomy x y with h | h | h
    · exact Or.inl (by simp [strLeL, h])
    · subst h
      rcases strLeL_total xs ys with ih | ih
      · exact Or.inl (by simp [strLeL, ih])
      · exact Or.inr (by simp [strLeL, ih])
    · exact Or.inr (by simp [strLeL, h])

theorem strLeL_trans :
    ∀ a b c : List Char, strLeL a b = true → strLeL b c = true → strLeL a c = true
  | [], _, _, _, _ => by simp [strLeL]
  | _ :: _, [], _, hab, _ => by simp [strLeL] at hab
  | _ :: _, _ :: _, [], _, hbc => by simp [strLeL] at hbc
  | x :: xs, y :: ys, z :: zs, hab, hbc => by
    simp only [strLeL, Bool.or_eq_true, Bool.and_eq_true, decide_eq_true_eq] at hab hbc ⊢
    rcases hab with h1 | ⟨h1, h2⟩
    · rcases hbc with g1 | ⟨g1, _⟩
      · exact Or.inl (lt_trans h1 g1)
      · exact Or.inl (g1 ▸ h1)
    · rcases hbc with g1 | ⟨g1, g2⟩
      · exact Or.inl (h1 ▸ g1)
      · exact Or.inr ⟨h1.trans g1, strLeL_trans xs ys zs h2 g2⟩

theorem strLe_total (a b : String) : strLe a b = true ∨ strLe b a = true :=
  strLeL_total a.data b.data

theorem strLe_trans (a b c : String) :
    strLe a b = true → strLe b c = true → strLe a c = true :=
  strLeL_trans a.data b.data c.data

theorem zlexLe_total (f : AggRow → ℤ) (a b : AggRow) :
    zlexLe f a b = true ∨ zlexLe f b a = true := by
  rcases lt_trichotomy (f a) (f b) with h | h | h
  · exact Or.inr (by simp [zlexLe, h])
  · rcases strLe_total a.navn b.navn with hn | hn
    · exact Or.inl (by simp [zlexLe, h, hn])
    · exact Or.inr (by simp [zlexLe, h, hn])
  · exact Or.inl (by simp [zlexLe, h])

theorem zlexLe_trans (f : AggRow → ℤ) (a b c : AggRow) :
    zlexLe f a b = true → zlexLe f b c = true → zlexLe f a c = true := by
  intro hab hbc
  simp only [zlexLe, Bool.or_eq_true, Bool.and_eq_true, decide_eq_true_eq] at hab hbc ⊢
  rcases hab with h1 | ⟨h1, h2⟩
  · rcases hbc with g1 | ⟨g1, _⟩
    · exact Or.inl (lt_trans g1 h1)
    · exact Or.inl (g1 ▸ h1)
  · rcases hbc with g1 | ⟨g1, g2⟩
    · exact Or.inl (h1 ▸ g1)
    · exact Or.inr ⟨h1.trans g1, strLe_trans a.navn b.navn c.navn h2 g2⟩

/-! ## Basic facts about the aggregation -/

theorem mem_buildAgg (price : ℚ) (roundDown : Bool) (ts : List TicketRow)
    (e : AggRow) (he : e ∈ buildAgg price roundDown ts) :
    e.lodd_raw = e.brutto / price ∧
      e.lodd = (if roundDown then ⌊e.lodd_raw⌋ else roundHalfEven e.lodd_raw) := by
  rcases List.mem_map.mp he with ⟨k, _, rfl⟩
  exact ⟨rfl, rfl⟩

theorem nodup_dedupAux {α : Type} [DecidableEq α] :
    ∀ (l seen : List α), (dedupAux seen l).Nodup ∧ ∀ x ∈ dedupAux seen l, x ∉ seen
  | [], _ => ⟨List.nodup_nil, by simp [dedupAux]⟩
  | k :: ks, seen => by
    by_cases hk : k ∈ seen
    · simpa [dedupAux, hk] using nodup_dedupAux ks seen
    · have ih := nodup_dedupAux ks (k :: seen)
      simp only [dedupAux, hk, if_false]
      constructor
      · refine List.nodup_cons.mpr ⟨fun hmem => ?_, ih.1⟩
        exact (ih.2 k hmem) (by simp)
      · intro x hx
        rcases List.mem_cons.mp hx with rfl | hx2
        · exact hk
        · intro hxs
          exact (ih.2 x hx2) (by simp [hxs])

theorem buildAgg_keys_nodup (price : ℚ) (roundDown : Bool) (ts : List TicketRow) :
    ((buildAgg price roundDown ts).map (fun e => (e.bilde, e.navn))).Nodup := by
  unfold buildAgg
  rw [List.map_map]
  have : ((fun e : AggRow => (e.bilde, e.navn)) ∘ fun k : String × String =>
      ({ bilde := k.1, navn := k.2, brutto := sumFor ts k,
         lodd_raw := sumFor ts k / price,
         lodd := if roundDown then ⌊sumFor ts k / price⌋
           else roundHalfEven (sumFor ts k / price) } : AggRow)) = id := by
    funext k
    simp [Function.comp]
  rw [this, List.map_id]
  exact ((perm_isort pairLe _).nodup_iff).mpr (nodup_dedupAux _ _).1

theorem navn_nodup_of_key_nodup (b : String) :
    ∀ agg : List AggRow, ((agg.map (fun e => (e.bilde, e.navn))).Nodup) →
      ((agg.filter (fun e => decide (e.bilde = b))).map AggRow.navn).Nodup := by
  intro agg
  induction agg with
  | nil => simp
  | cons e l ih =>
    intro h
    rcases List.nodup_cons.mp h with ⟨hke, hkl⟩
    by_cases hb : e.bilde = b
    · rw [List.filter_cons_of_pos (by simp [hb])]
      refine List.nodup_cons.mpr ⟨?_, ih hkl⟩
      intro hmem
      rcases List.mem_map.mp hmem with ⟨f, hf, hfn⟩
      have hfb : f.bilde = b := by
        have := (List.mem_filter.mp hf).2
        simpa using this
      exact hke (List.mem_map.mpr
        ⟨f, List.mem_of_mem_filter hf, by simp [hfb, hb, hfn]⟩)
    · rw [List.filter_cons_of_neg (by simp [hb])]
      exact ih hkl

/-! ## Claim C1 -/

/-- C1: two ticket rows with the same (artwork, resolved name) key and
gross amounts X and Y are merged into a single aggregate entry before
rounding, so in floor mode the ticket count is `⌊(X + Y) / price⌋`; with
price 20 and X = Y = 15 this gives 1 ticket, while rounding the parts
separately would give `⌊15/20⌋ + ⌊15/20⌋ = 0`. -/
theorem c1_grouping_merges_before_rounding (b n : String) (X Y price : ℚ)
    (hp : 0 < price) :
    buildAgg price true [⟨b, n, X⟩, ⟨b, n, Y⟩] =
      [{ bilde := b, navn := n, brutto := X + Y, lodd_raw := (X + Y) / price,
         lodd := ⌊(X + Y) / price⌋ }]
    ∧ (buildAgg 20 true [⟨b, n, 15⟩, ⟨b, n, 15⟩]).map AggRow.lodd = [1]
    ∧ ⌊(15 : ℚ) / 20⌋ + ⌊(15 : ℚ) / 20⌋ = 0 := by
  refine ⟨?_, ?_, ?_⟩
  · simp [buildAgg, dedupKeys, dedupAux, isort, insertLe, sumFor, keyOf,
      List.filter]
  · simp [buildAgg, dedupKeys, dedupAux, isort, insertLe, sumFor, keyOf,
      List.filter]
    norm_num
  · norm_num

/-- Witness for C1 at concrete inputs. -/
theorem c1_witness :
    (0 : ℚ) < 20 ∧
      (buildAgg 20 true [⟨"A", "Kari", 15⟩, ⟨"A", "Kari", 15⟩] =
        [{ bilde := "A", navn := "Kari", brutto := 30, lodd_raw := 30 / 20,
           lodd := 1 }]) := by
  have h := c1_grouping_merges_before_rounding "A" "Kari" 15 15 20 (by norm_num)
  refine ⟨by norm_num, ?_⟩
  rw [h.1]
  norm_num

/-! ## Claim C8 -/

/-- C8: in floor mode the total ticket count is at most the total raw
ticket count, and within each group the difference between the raw and
the floored ticket count is strictly below 1. -/
theorem c8_floor_sum_property (price : ℚ) (rows : List TicketRow)
    (hp : 0 < price) :
    ((buildAgg price true rows).map (fun e => (e.lodd : ℚ))).sum ≤
      ((buildAgg price true rows).map AggRow.lodd_raw).sum
    ∧ ∀ e ∈ buildAgg price true rows, e.lodd_raw - (e.lodd : ℚ) < 1 := by
  have hfl : ∀ e ∈ buildAgg price true rows, e.lodd = ⌊e.lodd_raw⌋ := by
    intro e he
    simpa using (mem_buildAgg price true rows e he).2
  constructor
  · refine List.sum_le_sum ?_
    intro e he
    rw [hfl e he]
    exact Int.floor_le e.lodd_raw
  · intro e he
    rw [hfl e he]
    have := Int.fract_lt_one e.lodd_raw
    rw [Int.fract] at this
    linarith

/-- Witness for C8 at a concrete input. -/
theorem c8_witness :
    (0 : ℚ) < 20 ∧
      (((buildAgg 20 true [⟨"A", "Kari", 45⟩]).map (fun e => (e.lodd : ℚ))).sum ≤
          ((buildAgg 20 true [⟨"A", "Kari", 45⟩]).map AggRow.lodd_raw).sum) := by
  exact ⟨by norm_num, (c8_floor_sum_property 20 [⟨"A", "Kari", 45⟩] (by norm_num)).1⟩

/-! ## Claim C10 -/

/-- C10: in round-to-nearest mode the aggregator rounds half to even:
any group whose raw ticket count is exactly n + 1/2 gets the even
neighbour as its ticket count; in particular raw 5/2 rounds to 2 and
raw 7/2 rounds to 4. -/
theorem c10_round_half_even (price : ℚ) (rows : List TicketRow) (e : AggRow)
    (he : e ∈ buildAgg price false rows) :
    e.lodd = roundHalfEven e.lodd_raw
    ∧ (∀ n : ℤ, e.lodd_raw = (n : ℚ) + 1 / 2 →
        e.lodd = (if Even n then n else n + 1) ∧ Even e.lodd)
    ∧ roundHalfEven (5 / 2) = 2 ∧ roundHalfEven (7 / 2) = 4 := by
  have hl : e.lodd = roundHalfEven e.lodd_raw := by
    simpa using (mem_buildAgg price false rows e he).2
  refine ⟨hl, ?_, ?_, ?_⟩
  · intro n hn
    have hfloor : ⌊e.lodd_raw⌋ = n := by
      rw [hn, add_comm, Int.floor_add_int]
      norm_num
    have hfrac : e.lodd_raw - (⌊e.lodd_raw⌋ : ℚ) = 1 / 2 := by
      rw [hfloor, hn]
      ring
    have hval : roundHalfEven e.lodd_raw = if Even n then n else n + 1 := by
      rw [roundHalfEven, hfrac, hfloor]
      norm_num
    refine ⟨hl.trans hval, ?_⟩
    rw [hl, hval]
    by_cases hev : Even n
    · simpa [hev]
    · simpa [hev] using Int.even_add_one.mpr hev
  · rw [roundHalfEven]
    norm_num
  · rw [roundHalfEven]
    norm_num
    decide

/-- Witness for C10 at concrete inputs: 50 kr at price 20 gives raw 5/2
and 2 tickets; 70 kr gives raw 7/2 and 4 tickets. -/
theorem c10_witness :
    ({ bilde := "A", navn := "Kari", brutto := 50, lodd_raw := 50 / 20,
       lodd := 2 } : AggRow) ∈ buildAgg 20 false [⟨"A", "Kari", 50⟩]
    ∧ roundHalfEven (5 / 2) = 2 ∧ roundHalfEven (7 / 2) = 4 := by
  have hmem : ({ bilde := "A", navn := "Kari", brutto := 50, lodd_raw := 50 / 20,
                 lodd := 2 } : AggRow) ∈ buildAgg 20 false [⟨"A", "Kari", 50⟩] := by
    simp [buildAgg, dedupKeys, dedupAux, isort, insertLe, sumFor, keyOf,
      List.filter, roundHalfEven]
    norm_num [Int.floor_eq_iff]
    rw [show Int.fract ((5 : ℚ) / 2) = 1 / 2 by rw [Int.fract]; norm_num]
    norm_num
  have h := c10_round_half_even 20 [⟨"A", "Kari", 50⟩] _ hmem
  exact ⟨hmem, h.2.2⟩

/-! ## Claim C9 -/

/-- C9: when any of the required columns Salgssted, Transaksjonstype,
Brutto is absent from the normalized table, the pipeline stops with a
schema error carrying exactly the missing column names (and no aggregate
output is produced); when all three are present this error is never
raised. -/
theorem c9_schema_error (price : ℚ) (down : Bool) (cols : List String)
    (rows : List RawRow) :
    (∀ m, runPipeline price down cols rows = .error (.schemaError m) ↔
        (missingCols cols ≠ [] ∧ m = missingCols cols))
    ∧ (∀ c, c ∈ missingCols cols ↔ c ∈ requiredCols ∧ c ∉ cols)
    ∧ ("Salgssted" ∈ cols → "Transaksjonstype" ∈ cols → "Brutto" ∈ cols →
        ∀ m, runPipeline price down cols rows ≠ .error (.schemaError m)) := by
  have hmem : ∀ c, c ∈ missingCols cols ↔ c ∈ requiredCols ∧ c ∉ cols := by
    intro c
    simp [missingCols, List.mem_filter]
  have hrun : ∀ m, missingCols cols = [] →
      runPipeline price down cols rows ≠ .error (.schemaError m) := by
    intro m h
    rw [runPipeline]
    simp only [h, ne_eq, not_true_eq_false, if_false, reduceIte]
    split
    · simp
    · simp
  refine ⟨?_, hmem, ?_⟩
  · intro m
    by_cases h : missingCols cols = []
    · simp only [h, ne_eq, not_true_eq_false, false_and, iff_false]
      exact hrun m h
    · simp [runPipeline, h, eq_comm]
  · intro h1 h2 h3 m
    have h : missingCols cols = [] := by
      simp [missingCols, requiredCols, List.filter_cons, h1, h2, h3]
    exact hrun m h

/-- Witness for C9 at a concrete input: a table missing the Brutto and
Transaksjonstype columns stops with a schema error naming both. -/
theorem c9_witness :
    runPipeline 20 true ["Salgssted", "Fornavn"] [] =
      .error (.schemaError ["Transaksjonstype", "Brutto"]) := by
  have h := (c9_schema_error 20 true ["Salgssted", "Fornavn"] []).1
    ["Transaksjonstype", "Brutto"]
  refine (Iff.mpr (h) ⟨?_, ?_⟩)
  · decide
  · decide

/-! ## Claim C7 (corrected) -/

/-- Counterexample to C7 as stated: at summed gross `20 + 1/2000000` and
unit price 20 the remainder is `1/2000000 < 1e-6`, so the epsilon rule
the claim describes would treat it as an exact multiple, yet the code's
exact comparison flags the entry as a non-exact multiple. -/
theorem c7_counterexample :
    (nonMultipleFor 20 (buildAgg 20 true [⟨"A", "Anna", 20 + 1 / 2000000⟩])).length = 1
    ∧ epsNonMultipleFlag (20 + 1 / 2000000) 20 = false := by
  constructor
  · have hfl : (⌊(20 + 1 / 2000000 : ℚ) / 20⌋ : ℤ) = 1 := by
      norm_num
    simp only [nonMultipleFor, buildAgg, dedupKeys, dedupAux, isort, insertLe,
      sumFor, keyOf, List.map, List.filter, pymod]
    norm_num [hfl]
  · have hfl : (⌊(20 + 1 / 2000000 : ℚ) / 20⌋ : ℤ) = 1 := by
      norm_num
    have hpm : pymod (20 + 1 / 2000000 : ℚ) 20 = 1 / 2000000 := by
      rw [pymod, hfl]
      norm_num
    have habs : |(1 : ℚ) / 2000000| < 1 / 1000000 := by
      rw [abs_of_pos (by norm_num)]
      norm_num
    have hd : (decide (|pymod (20 + 1 / 2000000 : ℚ) 20| < 1 / 1000000) : Bool) = true := by
      rw [hpm]
      exact decide_eq_true habs
    rw [epsNonMultipleFlag, hd, Bool.true_or, Bool.not_true]

/-- C7 as amended: the non-exact-multiple flag is computed by the exact
comparison `summed_gross % unit_price ≠ 0`, with no epsilon tolerance;
the example of the claim does hold: unit price 20 with summed gross 45
gives a flagged entry with raw ticket count 9/4 and floor count 2. -/
theorem c7_amended_exact_flag (price : ℚ) (agg : List AggRow) :
    (∀ e, e ∈ nonMultipleFor price agg ↔ e ∈ agg ∧ pymod e.brutto price ≠ 0)
    ∧ nonMultipleFor 20 (buildAgg 20 true [⟨"A", "Anna", 45⟩]) =
        [{ bilde := "A", navn := "Anna", brutto := 45, lodd_raw := 45 / 20,
           lodd := 2 }] := by
  constructor
  · intro e
    simp [nonMultipleFor, List.mem_filter]
  · have hfl : (⌊(45 : ℚ) / 20⌋ : ℤ) = 2 := by
      norm_num
    simp only [nonMultipleFor, buildAgg, dedupKeys, dedupAux, isort, insertLe,
      sumFor, keyOf, List.map, List.filter, pymod]
    norm_num [hfl]

/-- Witness for C7's amended statement at a concrete flagged entry. -/
theorem c7_witness :
    ({ bilde := "A", navn := "Anna", brutto := 45, lodd_raw := 45 / 20,
       lodd := 2 } : AggRow) ∈
      nonMultipleFor 20 (buildAgg 20 true [⟨"A", "Anna", 45⟩]) := by
  rw [(c7_amended_exact_flag 20 []).2]
  simp

/-! ## Wheel-list lemmas (claims C5 and C6) -/

theorem emitRow_eq_nil (e : AggRow) (h : e.lodd ≤ 0) : emitRow e = [] := by
  rw [emitRow, clampLodd, max_eq_right h]
  rfl

theorem leU_total (a b : AggRow) : leU a b = true ∨ leU b a = true :=
  zlexLe_total AggRow.lodd a b

theorem leU_trans (a b c : AggRow) :
    leU a b = true → leU b c = true → leU a c = true :=
  zlexLe_trans AggRow.lodd a b c

theorem leC_total (a b : AggRow) : leC a b = true ∨ leC b a = true :=
  zlexLe_total (fun e => clampLodd e.lodd) a b

theorem leC_trans (a b c : AggRow) :
    leC a b = true → leC b c = true → leC a c = true :=
  zlexLe_trans (fun e => clampLodd e.lodd) a b c

theorem leU_eq_leC_of_pos (a b : AggRow) (ha : 0 < a.lodd) (hb : 0 < b.lodd) :
    leU a b = leC a b := by
  have h1 : clampLodd a.lodd = a.lodd := max_eq_left ha.le
  have h2 : clampLodd b.lodd = b.lodd := max_eq_left hb.le
  rw [leU, leC, zlexLe, zlexLe, h1, h2]

theorem count_flatMap_emit_zero :
    ∀ (l : List AggRow) (n : String), n ∉ l.map AggRow.navn →
      List.count n (l.flatMap emitRow) = 0 := by
  intro l
  induction l with
  | nil => simp
  | cons f l ih =>
    intro n hn
    rw [List.flatMap_cons, List.count_append]
    have hfn : ¬ n = f.navn := fun hc => hn (by simp [hc])
    have h1 : List.count n (emitRow f) = 0 := by
      rw [emitRow, List.count_replicate]
      simp [Ne.symm hfn]
    rw [h1, ih n (fun hc => hn (by simp [List.mem_map] at hc ⊢; exact Or.inr hc))]

theorem count_flatMap_emit :
    ∀ (l : List AggRow) (e : AggRow), e ∈ l → (l.map AggRow.navn).Nodup →
      List.count e.navn (l.flatMap emitRow) = (clampLodd e.lodd).toNat := by
  intro l
  induction l with
  | nil => simp
  | cons f l ih =>
    intro e he hnd
    rcases List.nodup_cons.mp hnd with ⟨hf, hl⟩
    rw [List.flatMap_cons, List.count_append]
    rcases List.mem_cons.mp he with rfl | he2
    · have h1 : List.count e.navn (emitRow e) = (clampLodd e.lodd).toNat := by
        rw [emitRow, List.count_replicate]
        simp
      rw [h1, count_flatMap_emit_zero l e.navn hf, Nat.add_zero]
    · have hne : ¬ e.navn = f.navn := by
        intro hc
        exact hf (hc ▸ List.mem_map.mpr ⟨e, he2, rfl⟩)
      have h1 : List.count e.navn (emitRow f) = 0 := by
        rw [emitRow, List.count_replicate]
        simp [Ne.symm hne]
      rw [h1, ih e he2 hl, Nat.zero_add]

theorem wheel_eq_clamped_sort (agg : List AggRow) (b : String) :
    wheelNamesFor b agg =
      (isort leC (agg.filter (fun e => decide (e.bilde = b)))).flatMap emitRow := by
  have hemit : ∀ a : AggRow, decide (0 < a.lodd) = false → emitRow a = [] := by
    intro a ha
    exact emitRow_eq_nil a (le_of_not_lt (by simpa using ha))
  have hcong : ∀ x ∈ (agg.filter (fun e => decide (e.bilde = b))).filter
        (fun e => decide (0 < e.lodd)),
      ∀ y ∈ (agg.filter (fun e => decide (e.bilde = b))).filter
        (fun e => decide (0 < e.lodd)), leU x y = leC x y := by
    intro x hx y hy
    have hpx : 0 < x.lodd := by simpa using (List.mem_filter.mp hx).2
    have hpy : 0 < y.lodd := by simpa using (List.mem_filter.mp hy).2
    exact leU_eq_leC_of_pos x y hpx hpy
  rw [wheelNamesFor, subFor,
    flatMap_filter_of_nil emitRow (fun e => decide (0 < e.lodd)) hemit
      (isort leU (agg.filter (fun e => decide (e.bilde = b)))),
    filter_isort leU leU_total leU_trans (fun e => decide (0 < e.lodd))
      (agg.filter (fun e => decide (e.bilde = b))),
    isort_congr leU leC _ hcong,
    ← filter_isort leC leC_total leC_trans (fun e => decide (0 < e.lodd))
      (agg.filter (fun e => decide (e.bilde = b))),
    ← flatMap_filter_of_nil emitRow (fun e => decide (0 < e.lodd)) hemit
      (isort leC (agg.filter (fun e => decide (e.bilde = b))))]

theorem subFor_navn_nodup (price : ℚ) (roundDown : Bool) (ts : List TicketRow)
    (b : String) :
    ((subFor b (buildAgg price roundDown ts)).map AggRow.navn).Nodup := by
  have h1 := navn_nodup_of_key_nodup b (buildAgg price roundDown ts)
    (buildAgg_keys_nodup price roundDown ts)
  exact ((perm_isort leU _).map AggRow.navn).nodup_iff.mpr h1

/-! ## Claim C5 -/

/-- C5: the exported per-artwork ticket list (joined with newlines) is
exactly the flattening, over the artwork's aggregate entries ordered by
clamped ticket count descending then resolved name ascending, of each
buyer's name repeated its clamped ticket count times; consequently every
buyer of the artwork appears exactly its clamped count times.  (The code
sorts by the unclamped count, but only entries with positive count emit
names, and on those the two orders agree.) -/
theorem c5_wheel_list (price : ℚ) (down : Bool) (ts : List TicketRow)
    (b : String) :
    wheelNamesFor b (buildAgg price down ts) =
      (isort leC ((buildAgg price down ts).filter
        (fun e => decide (e.bilde = b)))).flatMap emitRow
    ∧ wheelTextFor b (buildAgg price down ts) =
        joinNewline (wheelNamesFor b (buildAgg price down ts))
    ∧ ∀ e ∈ buildAgg price down ts, e.bilde = b →
        List.count e.navn (wheelNamesFor b (buildAgg price down ts)) =
          (clampLodd e.lodd).toNat := by
  refine ⟨wheel_eq_clamped_sort _ b, rfl, ?_⟩
  intro e he hb
  have hmem : e ∈ subFor b (buildAgg price down ts) :=
    (mem_isort leU _ e).mpr (List.mem_filter.mpr ⟨he, by simp [hb]⟩)
  exact count_flatMap_emit _ e hmem (subFor_navn_nodup price down ts b)

/-- Witness for C5 at a concrete input: Kari (2 tickets) sorts before
Per (1 ticket) and appears exactly twice. -/
theorem c5_witness :
    wheelNamesFor "A" (buildAgg 20 true [⟨"A", "Per", 20⟩, ⟨"A", "Kari", 40⟩]) =
      (isort leC ((buildAgg 20 true [⟨"A", "Per", 20⟩, ⟨"A", "Kari", 40⟩]).filter
        (fun e => decide (e.bilde = "A")))).flatMap emitRow
    ∧ List.count "Kari"
        (wheelNamesFor "A" (buildAgg 20 true [⟨"A", "Per", 20⟩, ⟨"A", "Kari", 40⟩])) = 2 := by
  have h := c5_wheel_list 20 true [⟨"A", "Per", 20⟩, ⟨"A", "Kari", 40⟩] "A"
  refine ⟨h.1, ?_⟩
  have hagg : buildAgg 20 true [⟨"A", "Per", 20⟩, ⟨"A", "Kari", 40⟩] =
      [{ bilde := "A", navn := "Kari", brutto := 40, lodd_raw := 40 / 20, lodd := 2 },
       { bilde := "A", navn := "Per", brutto := 20, lodd_raw := 20 / 20, lodd := 1 }] := by
    simp [buildAgg, dedupKeys, dedupAux, isort, insertLe, pairLe, strLt, strLtL,
      strLe, strLeL, sumFor, keyOf, List.filter]
    norm_num
  have hmem : ({ bilde := "A", navn := "Kari", brutto := 40, lodd_raw := 40 / 20,
                 lodd := 2 } : AggRow) ∈
      buildAgg 20 true [⟨"A", "Per", 20⟩, ⟨"A", "Kari", 40⟩] := by
    rw [hagg]
    simp
  have hc := h.2.2 _ hmem rfl
  simpa [clampLodd] using hc

/-! ## Claim C6 -/

/-- C6: an aggregate entry whose computed ticket count is negative is
clamped to 0 everywhere the presentation layer consumes it: it emits no
names into the ticket list, is excluded from the top-10 table, and the
total and buyer-count metrics are sums of clamped values over the
artwork's entries; the entry itself, with its unclamped ticket count and
summed gross, remains present in the sorted per-artwork table. -/
theorem c6_negative_clamped (price : ℚ) (down : Bool) (ts : List TicketRow)
    (e : AggRow) (he : e ∈ buildAgg price down ts) (hneg : e.lodd < 0) :
    clampLodd e.lodd = 0
    ∧ emitRow e = []
    ∧ List.count e.navn (wheelNamesFor e.bilde (buildAgg price down ts)) = 0
    ∧ e ∉ top10For e.bilde (buildAgg price down ts)
    ∧ totalLoddFor e.bilde (buildAgg price down ts) =
        (((buildAgg price down ts).filter
          (fun x => decide (x.bilde = e.bilde))).map
            (fun x => clampLodd x.lodd)).sum
    ∧ buyersFor e.bilde (buildAgg price down ts) =
        ((buildAgg price down ts).filter
          (fun x => decide (x.bilde = e.bilde))).countP
            (fun x => decide (0 < clampLodd x.lodd))
    ∧ e ∈ subFor e.bilde (buildAgg price down ts) := by
  have hc : clampLodd e.lodd = 0 := max_eq_right hneg.le
  have hmem : e ∈ subFor e.bilde (buildAgg price down ts) :=
    (mem_isort leU _ e).mpr (List.mem_filter.mpr ⟨he, by simp⟩)
  refine ⟨hc, emitRow_eq_nil e hneg.le, ?_, ?_, ?_, ?_, hmem⟩
  · have hcount := count_flatMap_emit _ e hmem
      (subFor_navn_nodup price down ts e.bilde)
    rw [hc] at hcount
    simpa [wheelNamesFor] using hcount
  · intro htop
    have h1 : e ∈ (subFor e.bilde (buildAgg price down ts)).filter
        (fun x => decide (0 < clampLodd x.lodd)) := List.mem_of_mem_take htop
    have h2 : (0 : ℤ) < clampLodd e.lodd := by
      simpa using (List.mem_filter.mp h1).2
    rw [hc] at h2
    exact lt_irrefl 0 h2
  · exact List.Perm.sum_eq (((perm_isort leU _)).map (fun x => clampLodd x.lodd))
  · exact List.Perm.countP_eq _ (perm_isort leU _)

/-- Witness for C6 at a concrete input: a net refund of 20 kr at price
20 gives unclamped ticket count -1, clamped to 0 and excluded. -/
theorem c6_witness :
    (({ bilde := "A", navn := "Mons", brutto := -20, lodd_raw := -20 / 20,
        lodd := -1 } : AggRow) ∈ buildAgg 20 true [⟨"A", "Mons", -20⟩])
    ∧ clampLodd (-1) = 0
    ∧ List.count "Mons" (wheelNamesFor "A" (buildAgg 20 true [⟨"A", "Mons", -20⟩])) = 0 := by
  have hmem : ({ bilde := "A", navn := "Mons", brutto := -20, lodd_raw := -20 / 20,
                 lodd := -1 } : AggRow) ∈ buildAgg 20 true [⟨"A", "Mons", -20⟩] := by
    have hfl : (⌊(-20 : ℚ) / 20⌋ : ℤ) = -1 := by norm_num
    simp [buildAgg, dedupKeys, dedupAux, isort, insertLe, sumFor, keyOf,
      List.filter, hfl]
    norm_num
  have h := c6_negative_clamped 20 true [⟨"A", "Mons", -20⟩] _ hmem (by norm_num)
  exact ⟨hmem, by decide, h.2.2.1⟩

/-! ## Header-locator lemmas (claim C2) -/

theorem getD_take {α : Type} (d : α) :
    ∀ (l : List α) (n j : Nat), j < n → (l.take n).getD j d = l.getD j d := by
  intro l
  induction l with
  | nil => simp
  | cons x xs ih =>
    intro n j hj
    cases n with
    | zero => omega
    | succ n =>
      cases j with
      | zero => simp
      | succ j =>
        simp only [List.take_succ_cons, List.getD_cons_succ]
        exact ih n j (by omega)

theorem findHeaderAux_some_iff :
    ∀ (l : List (List String)) (i k : Nat),
      findHeaderAux l i = some k ↔
        ∃ j, j < l.length ∧ k = i + j ∧ rowHasMarker (l.getD j []) = true ∧
          ∀ m, m < j → rowHasMarker (l.getD m []) = false := by
  intro l
  induction l with
  | nil => simp [findHeaderAux]
  | cons r rs ih =>
    intro i k
    cases hr : rowHasMarker r with
    | true =>
      simp only [findHeaderAux, hr, if_true]
      constructor
      · intro h
        have hik : i = k := Option.some.inj h
        refine ⟨0, by simp, by omega, by simpa using hr, by omega⟩
      · rintro ⟨j, hjl, hk, hmark, hnone⟩
        cases j with
        | zero => simp [hk]
        | succ j =>
          have := hnone 0 (by omega)
          simp [hr] at this
    | false =>
      simp only [findHeaderAux, hr, Bool.false_eq_true, if_false]
      rw [ih (i + 1) k]
      constructor
      · rintro ⟨j, hjl, hk, hmark, hnone⟩
        refine ⟨j + 1, by simpa using hjl, by omega, by simpa using hmark, ?_⟩
        intro m hm
        cases m with
        | zero => simpa using hr
        | succ m => simpa using hnone m (by omega)
      · rintro ⟨j, hjl, hk, hmark, hnone⟩
        cases j with
        | zero =>
          simp only [List.getD_cons_zero] at hmark
          rw [hmark] at hr
          cases hr
        | succ j =>
          refine ⟨j, by simpa using hjl, by omega, by simpa using hmark, ?_⟩
          intro m hm
          simpa using hnone (m + 1) (by omega)

theorem findHeaderAux_none_iff :
    ∀ (l : List (List String)) (i : Nat),
      findHeaderAux l i = none ↔
        ∀ j, j < l.length → rowHasMarker (l.getD j []) = false := by
  intro l
  induction l with
  | nil => simp [findHeaderAux]
  | cons r rs ih =>
    intro i
    cases hr : rowHasMarker r with
    | true =>
      simp only [findHeaderAux, hr, if_true]
      constructor
      · intro h
        cases h
      · intro h
        have := h 0 (by simp)
        rw [List.getD_cons_zero, hr] at this
        cases this
    | false =>
      simp only [findHeaderAux, hr, Bool.false_eq_true, if_false]
      rw [ih (i + 1)]
      constructor
      · intro h j hj
        cases j with
        | zero => simpa using hr
        | succ j => simpa using h j (by simpa using hj)
      · intro h j hj
        simpa using h (j + 1) (by simpa using hj)

/-! ## Claim C2 -/

/-- C2: the header locator examines at most the first 200 rows, returns
the index of the first row any of whose cells contains "Salgssted" as a
whole word case-insensitively, and `none` when no such row exists among
those examined; a grid with the marker embedded in the longer word
"Salgsstedet" at row 3 and the distinct word at row 5 selects row 5. -/
theorem c2_find_header_row (raw : List (List String)) :
    find_header_row raw = find_header_row (raw.take 200)
    ∧ (∀ i, find_header_row raw = some i →
        i < 200 ∧ i < raw.length ∧ rowHasMarker (raw.getD i []) = true ∧
          ∀ j, j < i → rowHasMarker (raw.getD j []) = false)
    ∧ (find_header_row raw = none ↔
        ∀ i, i < 200 → i < raw.length → rowHasMarker (raw.getD i []) = false)
    ∧ find_header_row [[], [], [], ["Dato", "Salgsstedet"], ["x"],
        ["Rapport", "mitt SALGSSTED her"]] = some 5 := by
  refine ⟨?_, ?_, ?_, ?_⟩
  · rw [find_header_row, find_header_row, List.take_take]
    norm_num
  · intro i h
    rw [find_header_row, findHeaderAux_some_iff] at h
    rcases h with ⟨j, hjl, hk, hmark, hnone⟩
    rw [List.length_take] at hjl
    have hj200 : j < 200 := lt_of_lt_of_le hjl (min_le_left ..)
    have hjraw : j < raw.length := lt_of_lt_of_le hjl (min_le_right ..)
    have hi : i = j := by omega
    subst hi
    refine ⟨hj200, hjraw, by rwa [getD_take [] raw 200 i hj200] at hmark, ?_⟩
    intro m hm
    have := hnone m hm
    rwa [getD_take [] raw 200 m (by omega)] at this
  · rw [find_header_row, findHeaderAux_none_iff]
    constructor
    · intro h i h200 hraw
      have := h i (by rw [List.length_take]; omega)
      rwa [getD_take [] raw 200 i h200] at this
    · intro h j hj
      rw [List.length_take] at hj
      have hj200 : j < 200 := lt_of_lt_of_le hj (min_le_left ..)
      have hjraw : j < raw.length := lt_of_lt_of_le hj (min_le_right ..)
      rw [getD_take [] raw 200 j hj200]
      exact h j hj200 hjraw
  · decide

/-- Witness for C2: the characterization applied to the concrete grid
with "Salgsstedet" at row 3 and "SALGSSTED" as a distinct word at row 5. -/
theorem c2_witness :
    find_header_row [[], [], [], ["Dato", "Salgsstedet"], ["x"],
        ["Rapport", "mitt SALGSSTED her"]] = some 5
    ∧ (5 : Nat) < 200
    ∧ rowHasMarker (([[], [], [], ["Dato", "Salgsstedet"], ["x"],
        ["Rapport", "mitt SALGSSTED her"]] : List (List String)).getD 5 []) = true := by
  have h := c2_find_header_row [[], [], [], ["Dato", "Salgsstedet"], ["x"],
    ["Rapport", "mitt SALGSSTED her"]]
  have h5 := h.2.1 5 h.2.2.2
  exact ⟨h.2.2.2, h5.1, h5.2.2.1⟩

/-! ## Python strip lemmas (claim C3) -/

theorem dropWhile_shape {α : Type} (p : α → Bool) :
    ∀ l : List α, l.dropWhile p = [] ∨
      ∃ c t, l.dropWhile p = c :: t ∧ p c = false := by
  intro l
  induction l with
  | nil => exact Or.inl rfl
  | cons x xs ih =>
    cases hx : p x with
    | true => simpa [List.dropWhile_cons, hx] using ih
    | false => exact Or.inr ⟨x, xs, by simp [List.dropWhile_cons, hx], hx⟩

theorem stripList_front (cs : List Char) :
    pyStripList cs = [] ∨
      ∃ c t, pyStripList cs = c :: t ∧ pyIsSpace c = false :=
  dropWhile_shape pyIsSpace _

theorem stripList_back (cs : List Char) :
    pyStripList cs = [] ∨
      ∃ m d, pyStripList cs = m ++ [d] ∧ pyIsSpace d = false := by
  rcases dropWhile_shape pyIsSpace cs.reverse with h | ⟨d, t, hdt, hd⟩
  · left
    rw [pyStripList, h]
    rfl
  · right
    rw [pyStripList, hdt]
    rw [show (d :: t).reverse = t.reverse ++ [d] by simp]
    rw [List.dropWhile_append]
    cases hemp : (t.reverse.dropWhile pyIsSpace).isEmpty with
    | true =>
      refine ⟨[], d, ?_, hd⟩
      simp [List.dropWhile_cons, hd]
    | false =>
      refine ⟨t.reverse.dropWhile pyIsSpace, d, ?_, hd⟩
      simp [hemp]

theorem strip_noop (c : Char) (mid : List Char) (d : Char)
    (hc : pyIsSpace c = false) (hd : pyIsSpace d = false) :
    pyStripList (c :: (mid ++ [d])) = c :: (mid ++ [d]) := by
  rw [pyStripList]
  rw [show (c :: (mid ++ [d])).reverse = d :: (mid.reverse ++ [c]) by simp]
  rw [List.dropWhile_cons_of_neg (by simp [hd])]
  rw [show (d :: (mid.reverse ++ [c])).reverse = c :: (mid ++ [d]) by simp]
  rw [List.dropWhile_cons_of_neg (by simp [hc])]

theorem pyStrip_concat (a b : String) (ha : pyStrip a ≠ "") (hb : pyStrip b ≠ "") :
    pyStrip (pyStrip a ++ " " ++ pyStrip b) = pyStrip a ++ " " ++ pyStrip b := by
  have hane : pyStripList a.data ≠ [] := by
    intro h
    apply ha
    show String.mk (pyStripList a.data) = ""
    rw [h]
  have hbne : pyStripList b.data ≠ [] := by
    intro h
    apply hb
    show String.mk (pyStripList b.data) = ""
    rw [h]
  rcases stripList_front a.data with h0 | ⟨c, t, hct, hc⟩
  · exact absurd h0 hane
  rcases stripList_back b.data with h0 | ⟨m, d, hmd, hd⟩
  · exact absurd h0 hbne
  have hdata : (pyStrip a ++ " " ++ pyStrip b).data = c :: ((t ++ ' ' :: m) ++ [d]) := by
    rw [String.data_append, String.data_append]
    show pyStripList a.data ++ (" ").data ++ pyStripList b.data = _
    rw [hct, hmd]
    simp
  show String.mk (pyStripList (pyStrip a ++ " " ++ pyStrip b).data) = _
  rw [hdata, strip_noop c (t ++ ' ' :: m) d hc hd, ← hdata]

/-! ## Claim C3 -/

/-- C3: the name resolver applies strict precedence — a usable trimmed
first name (non-empty, not "nan") wins, with the trimmed last name
appended space-separated only when it is usable too; otherwise a usable
trimmed message is used; otherwise the sentinel "Ukjent" — and the
result is never the empty string.  The spec's three scenario rows
resolve to "Anna", "Ola Nordmann" and "Ukjent" respectively. -/
theorem c3_name_resolution (r : RawRow) :
    (pyStrip r.fornavn ≠ "" → pyLower (pyStrip r.fornavn) ≠ "nan" →
      build_full_name r =
        if pyStrip r.etternavn ≠ "" ∧ pyLower (pyStrip r.etternavn) ≠ "nan" then
          pyStrip r.fornavn ++ " " ++ pyStrip r.etternavn
        else pyStrip r.fornavn)
    ∧ (¬(pyStrip r.fornavn ≠ "" ∧ pyLower (pyStrip r.fornavn) ≠ "nan") →
        pyStrip r.melding ≠ "" → pyLower (pyStrip r.melding) ≠ "nan" →
        build_full_name r = pyStrip r.melding)
    ∧ (¬(pyStrip r.fornavn ≠ "" ∧ pyLower (pyStrip r.fornavn) ≠ "nan") →
        ¬(pyStrip r.melding ≠ "" ∧ pyLower (pyStrip r.melding) ≠ "nan") →
        build_full_name r = "Ukjent")
    ∧ build_full_name r ≠ ""
    ∧ build_full_name
        { salgssted := "", transaksjonstype := "", brutto := none,
          fornavn := "Anna", etternavn := "nan", melding := "" } = "Anna"
    ∧ build_full_name
        { salgssted := "", transaksjonstype := "", brutto := none,
          fornavn := "", etternavn := "", melding := "Ola Nordmann" } = "Ola Nordmann"
    ∧ build_full_name
        { salgssted := "", transaksjonstype := "", brutto := none,
          fornavn := "", etternavn := "", melding := "" } = "Ukjent" := by
  refine ⟨?_, ?_, ?_, ?_, by decide, by decide, by decide⟩
  · intro h1 h2
    rw [build_full_name, if_pos ⟨h1, h2⟩]
    by_cases hen : pyStrip r.etternavn ≠ "" ∧ pyLower (pyStrip r.etternavn) ≠ "nan"
    · rw [if_pos hen, if_pos hen]
      exact pyStrip_concat r.fornavn r.etternavn h1 hen.1
    · rw [if_neg hen, if_neg hen]
  · intro hno hm1 hm2
    rw [build_full_name, if_neg hno]
    exact if_pos ⟨hm1, hm2⟩
  · intro hno hmsg
    rw [build_full_name, if_neg hno]
    exact if_neg hmsg
  · rw [build_full_name]
    by_cases h1 : pyStrip r.fornavn ≠ "" ∧ pyLower (pyStrip r.fornavn) ≠ "nan"
    · rw [if_pos h1]
      by_cases h2 : pyStrip r.etternavn ≠ "" ∧ pyLower (pyStrip r.etternavn) ≠ "nan"
      · rw [if_pos h2, pyStrip_concat r.fornavn r.etternavn h1.1 h2.1]
        intro hceq
        have hd := congrArg String.data hceq
        rw [String.data_append, String.data_append] at hd
        simp at hd
      · rw [if_neg h2]
        exact h1.1
    · rw [if_neg h1]
      by_cases h3 : pyStrip r.melding ≠ "" ∧ pyLower (pyStrip r.melding) ≠ "nan"
      · rw [if_pos h3]
        exact h3.1
      · rw [if_neg h3]
        decide

/-- Witness for C3 at a concrete row where the message fallback fires. -/
theorem c3_witness :
    build_full_name
        { salgssted := "", transaksjonstype := "", brutto := none,
          fornavn := " nan ", etternavn := "Berg",
          melding := " Ola Nordmann " } = "Ola Nordmann" := by
  have h := (c3_name_resolution
    { salgssted := "", transaksjonstype := "", brutto := none,
      fornavn := " nan ", etternavn := "Berg",
      melding := " Ola Nordmann " }).2.1
  rw [h (by decide) (by decide) (by decide)]
  decide

/-! ## Pattern-matching lemmas (claim C4) -/

theorem ciStrip_sound : ∀ (pat cs r : List Char), ciStrip pat cs = some r →
    ∃ a, cs = a ++ r ∧ a.map Char.toLower = pat.map Char.toLower
  | [], cs, r => by
    intro h
    have hcr : cs = r := Option.some.inj (by simpa [ciStrip] using h)
    exact ⟨[], by simp [hcr], by simp⟩
  | _ :: _, [], r => by
    intro h
    simp [ciStrip] at h
  | p :: ps, c :: cs, r => by
    intro h
    rw [ciStrip] at h
    by_cases hlc : lowEq c p = true
    · rw [if_pos hlc] at h
      obtain ⟨a, ha, hmap⟩ := ciStrip_sound ps cs r h
      refine ⟨c :: a, by simp [ha], ?_⟩
      have : c.toLower = p.toLower := by simpa [lowEq] using hlc
      simp [hmap, this]
    · rw [if_neg hlc] at h
      cases h

theorem ciStrip_complete : ∀ (pat a r : List Char),
    a.map Char.toLower = pat.map Char.toLower → ciStrip pat (a ++ r) = some r
  | [], a, r => by
    intro h
    have ha : a = [] := by simpa using h
    simp [ha, ciStrip]
  | p :: ps, [], r => by
    intro h
    simp at h
  | p :: ps, c :: a, r => by
    intro h
    rw [List.map_cons, List.map_cons, List.cons.injEq] at h
    rw [List.cons_append, ciStrip, if_pos (by simpa [lowEq] using h.1)]
    exact ciStrip_complete ps a r h.2

theorem dropWhile_all_append (w : List Char) (d : Char) (t : List Char)
    (hw : ∀ x ∈ w, pyIsSpace x = true) (hd : pyIsSpace d = false) :
    List.dropWhile pyIsSpace (w ++ d :: t) = d :: t := by
  induction w with
  | nil => simp [List.dropWhile_cons, hd]
  | cons x w ih =>
    rw [List.cons_append, List.dropWhile_cons_of_pos (hw x (by simp))]
    exact ih (fun y hy => hw y (by simp [hy]))

theorem sp_cases (x : Char) (h : pyIsSpace x = true) :
    x = ' ' ∨ x = '\t' ∨ x = '\n' ∨ x = '\r' ∨ x = '\x0b' ∨ x = '\x0c' := by
  have h2 : ((((x = ' ' ∨ x = '\t') ∨ x = '\n') ∨ x = '\r') ∨ x = '\x0b') ∨
      x = '\x0c' := by
    simpa [pyIsSpace, Bool.or_eq_true, decide_eq_true_eq] using h
  tauto

theorem alpha_not_space (c : Char) (h : c.isAlpha = true) : pyIsSpace c = false := by
  cases hsp : pyIsSpace c with
  | false => rfl
  | true =>
    rcases sp_cases c hsp with rfl | rfl | rfl | rfl | rfl | rfl <;>
      exact absurd h (by decide)

theorem toLower_b_not_space (c : Char) (h : Char.toLower c = 'b') :
    pyIsSpace c = false := by
  cases hsp : pyIsSpace c with
  | false => rfl
  | true =>
    rcases sp_cases c hsp with rfl | rfl | rfl | rfl | rfl | rfl <;>
      exact absurd h (by decide)

theorem bilde_head (l2 : List Char)
    (h : l2.map Char.toLower = ['b', 'i', 'l', 'd', 'e']) :
    ∃ b0 l2t, l2 = b0 :: l2t ∧ pyIsSpace b0 = false := by
  cases l2 with
  | nil => simp at h
  | cons b0 l2t =>
    rw [List.map_cons, List.cons.injEq] at h
    exact ⟨b0, l2t, rfl, toLower_b_not_space b0 h.1⟩

theorem tryBildeAt_sound (cs : List Char) (c : Char)
    (h : tryBildeAt cs = some c) :
    ∃ l1 w1 l2 w2 rest, cs = l1 ++ w1 ++ l2 ++ w2 ++ c :: rest ∧
      l1.map Char.toLower = ['l', 'o', 'd', 'd'] ∧
      (∀ x ∈ w1, pyIsSpace x = true) ∧
      l2.map Char.toLower = ['b', 'i', 'l', 'd', 'e'] ∧
      (∀ x ∈ w2, pyIsSpace x = true) ∧ c.isAlpha = true := by
  rw [tryBildeAt] at h
  cases h1 : ciStrip ("lodd").data cs with
  | none => rw [h1, Option.none_bind] at h; cases h
  | some r1 =>
    rw [h1, Option.some_bind] at h
    cases h2 : ciStrip ("bilde").data (r1.dropWhile pyIsSpace) with
    | none => rw [h2, Option.none_bind] at h; cases h
    | some r2 =>
      rw [h2, Option.some_bind, letterAfterSpaces] at h
      cases h3 : r2.dropWhile pyIsSpace with
      | nil => rw [h3] at h; cases h
      | cons c0 rest =>
        rw [h3] at h
        simp only at h
        by_cases ha : c0.isAlpha = true
        · rw [if_pos ha] at h
          have hc0 : c0 = c := Option.some.inj h
          subst hc0
          obtain ⟨l1, hcs, hm1⟩ := ciStrip_sound _ cs r1 h1
          obtain ⟨l2, hr1d, hm2⟩ := ciStrip_sound _ _ r2 h2
          refine ⟨l1, r1.takeWhile pyIsSpace, l2, r2.takeWhile pyIsSpace, rest,
            ?_, by simpa using hm1, fun x hx => List.mem_takeWhile_imp hx,
            by simpa using hm2, fun x hx => List.mem_takeWhile_imp hx, ha⟩
          have e1 : r1 = r1.takeWhile pyIsSpace ++ (l2 ++ r2) := by
            rw [← hr1d, List.takeWhile_append_dropWhile]
          have e2 : r2 = r2.takeWhile pyIsSpace ++ (c0 :: rest) := by
            rw [← h3, List.takeWhile_append_dropWhile]
          conv_lhs => rw [hcs, e1, e2]
          simp
        · rw [if_neg ha] at h
          cases h

theorem tryBildeAt_complete (l1 w1 l2 w2 : List Char) (c : Char) (rest : List Char)
    (hm1 : l1.map Char.toLower = ['l', 'o', 'd', 'd'])
    (hw1 : ∀ x ∈ w1, pyIsSpace x = true)
    (hm2 : l2.map Char.toLower = ['b', 'i', 'l', 'd', 'e'])
    (hw2 : ∀ x ∈ w2, pyIsSpace x = true) (hc : c.isAlpha = true) :
    tryBildeAt (l1 ++ w1 ++ l2 ++ w2 ++ c :: rest) = some c := by
  obtain ⟨b0, l2t, rfl, hb0⟩ := bilde_head l2 hm2
  have e1 : l1 ++ w1 ++ (b0 :: l2t) ++ w2 ++ c :: rest =
      l1 ++ (w1 ++ (b0 :: (l2t ++ (w2 ++ c :: rest)))) := by simp
  rw [e1, tryBildeAt]
  rw [ciStrip_complete ("lodd").data l1 _ (by simpa using hm1), Option.some_bind]
  rw [dropWhile_all_append w1 b0 _ hw1 hb0]
  rw [show b0 :: (l2t ++ (w2 ++ c :: rest)) = (b0 :: l2t) ++ (w2 ++ c :: rest) by simp]
  rw [ciStrip_complete ("bilde").data (b0 :: l2t) _ (by simpa using hm2),
    Option.some_bind, letterAfterSpaces]
  rw [dropWhile_all_append w2 c rest hw2 (alpha_not_space c hc)]
  simp only
  rw [if_pos hc]

theorem bildeSearch_sound : ∀ (cs : List Char) (c : Char),
    bildeSearch cs = some c →
      ∃ pre l1 w1 l2 w2 rest, cs = pre ++ l1 ++ w1 ++ l2 ++ w2 ++ c :: rest ∧
        l1.map Char.toLower = ['l', 'o', 'd', 'd'] ∧
        (∀ x ∈ w1, pyIsSpace x = true) ∧
        l2.map Char.toLower = ['b', 'i', 'l', 'd', 'e'] ∧
        (∀ x ∈ w2, pyIsSpace x = true) ∧ c.isAlpha = true
  | [], c => by
    intro h
    simp [bildeSearch] at h
  | x :: xs, c => by
    intro h
    rw [bildeSearch] at h
    cases h0 : tryBildeAt (x :: xs) with
    | some r =>
      rw [h0] at h
      have hrc : r = c := Option.some.inj h
      subst hrc
      obtain ⟨l1, w1, l2, w2, rest, hdec, hp⟩ := tryBildeAt_sound (x :: xs) r h0
      exact ⟨[], l1, w1, l2, w2, rest, by simpa using hdec, hp⟩
    | none =>
      rw [h0] at h
      obtain ⟨pre, l1, w1, l2, w2, rest, hdec, hp⟩ := bildeSearch_sound xs c h
      exact ⟨x :: pre, l1, w1, l2, w2, rest, by simp [hdec], hp⟩

theorem bildeSearch_isSome_of_shape :
    ∀ (pre l1 w1 l2 w2 : List Char) (c : Char) (rest : List Char),
      l1.map Char.toLower = ['l', 'o', 'd', 'd'] →
      (∀ x ∈ w1, pyIsSpace x = true) →
      l2.map Char.toLower = ['b', 'i', 'l', 'd', 'e'] →
      (∀ x ∈ w2, pyIsSpace x = true) → c.isAlpha = true →
      (bildeSearch (pre ++ l1 ++ w1 ++ l2 ++ w2 ++ c :: rest)).isSome = true := by
  intro pre
  induction pre with
  | nil =>
    intro l1 w1 l2 w2 c rest hm1 hw1 hm2 hw2 hc
    cases l1 with
    | nil => simp at hm1
    | cons a l1t =>
      have ht := tryBildeAt_complete (a :: l1t) w1 l2 w2 c rest hm1 hw1 hm2 hw2 hc
      have e1 : ([] : List Char) ++ (a :: l1t) ++ w1 ++ l2 ++ w2 ++ c :: rest =
          a :: (l1t ++ w1 ++ l2 ++ w2 ++ c :: rest) := by simp
      rw [e1]
      rw [bildeSearch]
      rw [show a :: (l1t ++ w1 ++ l2 ++ w2 ++ c :: rest) =
        (a :: l1t) ++ w1 ++ l2 ++ w2 ++ c :: rest by simp]
      rw [ht]
      rfl
  | cons x pre ih =>
    intro l1 w1 l2 w2 c rest hm1 hw1 hm2 hw2 hc
    have e1 : (x :: pre) ++ l1 ++ w1 ++ l2 ++ w2 ++ c :: rest =
        x :: (pre ++ l1 ++ w1 ++ l2 ++ w2 ++ c :: rest) := by simp
    rw [e1, bildeSearch]
    cases h0 : tryBildeAt (x :: (pre ++ l1 ++ w1 ++ l2 ++ w2 ++ c :: rest)) with
    | some r => rfl
    | none => exact ih l1 w1 l2 w2 c rest hm1 hw1 hm2 hw2 hc

/-! ## Claim C4 (corrected) -/

/-- Counterexample to C4 as stated: "Lodd bildeB" survives the substring
filter and has no whitespace between the phrase and the letter, so under
the claim's reading ("followed by whitespace then one letter") the
extraction should fail and the row be dropped; the code's regex
`lodd\s*bilde\s*([A-Z])` treats the whitespace as optional and extracts
"B". -/
theorem c4_counterexample :
    ciContains ("Lodd bildeB") ("Lodd bilde") = true
    ∧ extract_bilde ("Lodd bildeB") = some ("B")
    ∧ extract_bilde_spec ("Lodd bildeB") = none := by
  refine ⟨by decide, by decide, by decide⟩

/-- C4 as amended: extraction succeeds exactly when the text (non-empty,
not "nan") contains "lodd", optional whitespace, "bilde", optional
whitespace, then one letter, case-insensitively; the result is always
the captured letter uppercased; rows whose extraction fails are dropped
from the tagged table entirely rather than given a default artwork id. -/
theorem c4_amended_extraction (s : String) :
    ((extract_bilde s).isSome = true ↔
      (¬(s = "" ∨ pyLower s = "nan") ∧
        ∃ (pre l1 w1 l2 w2 : List Char) (c : Char) (rest : List Char),
          s.data = pre ++ l1 ++ w1 ++ l2 ++ w2 ++ c :: rest ∧
          l1.map Char.toLower = ['l', 'o', 'd', 'd'] ∧
          (∀ x ∈ w1, pyIsSpace x = true) ∧
          l2.map Char.toLower = ['b', 'i', 'l', 'd', 'e'] ∧
          (∀ x ∈ w2, pyIsSpace x = true) ∧ c.isAlpha = true))
    ∧ (∀ t, extract_bilde s = some t →
        ∃ c : Char, c.isAlpha = true ∧ t = String.mk [c.toUpper])
    ∧ (∀ (r : RawRow) (rows : List RawRow),
        (extract_bilde r.salgssted = none → tagRows (r :: rows) = tagRows rows)
        ∧ (∀ bs, extract_bilde r.salgssted = some bs →
            tagRows (r :: rows) =
              ⟨bs, build_full_name r, r.brutto.getD 0⟩ :: tagRows rows)) := by
  refine ⟨⟨?_, ?_⟩, ?_, ?_⟩
  · intro h
    rw [extract_bilde] at h
    by_cases hg : s = "" ∨ pyLower s = "nan"
    · rw [if_pos hg] at h
      simp at h
    · rw [if_neg hg] at h
      refine ⟨hg, ?_⟩
      cases hb : bildeSearch s.data with
      | none => rw [hb] at h; simp at h
      | some c =>
        obtain ⟨pre, l1, w1, l2, w2, rest, hdec, hp1, hp2, hp3, hp4, hp5⟩ :=
          bildeSearch_sound s.data c hb
        exact ⟨pre, l1, w1, l2, w2, c, rest, hdec, hp1, hp2, hp3, hp4, hp5⟩
  · rintro ⟨hg, pre, l1, w1, l2, w2, c, rest, hdec, hm1, hw1, hm2, hw2, hc⟩
    rw [extract_bilde, if_neg hg, hdec]
    have hs := bildeSearch_isSome_of_shape pre l1 w1 l2 w2 c rest hm1 hw1 hm2 hw2 hc
    obtain ⟨c2, hc2⟩ := Option.isSome_iff_exists.mp hs
    rw [hc2]
    rfl
  · intro t ht
    rw [extract_bilde] at ht
    by_cases hg : s = "" ∨ pyLower s = "nan"
    · rw [if_pos hg] at ht
      cases ht
    · rw [if_neg hg] at ht
      cases hb : bildeSearch s.data with
      | none => rw [hb] at ht; cases ht
      | some c =>
        rw [hb] at ht
        obtain ⟨_, _, _, _, _, _, _, _, _, _, _, hc⟩ :=
          bildeSearch_sound s.data c hb
        exact ⟨c, hc, (Option.some.inj ht).symm⟩
  · intro r rows
    constructor
    · intro h
      simp [tagRows, List.filterMap_cons, h]
    · intro bs h
      simp [tagRows, List.filterMap_cons, h]

/-- Witness for C4's amended statement: "Lodd bilde A" extracts "A",
and "LODD BILDE b" extracts "B" (case-insensitive, uppercased). -/
theorem c4_witness :
    extract_bilde ("Lodd bilde A") = some ("A")
    ∧ extract_bilde ("LODD BILDE b") = some ("B")
    ∧ (∃ c, Char.isAlpha c = true ∧ ("A" : String) = String.mk [c.toUpper]) := by
  refine ⟨by decide, by decide,
    (c4_amended_extraction ("Lodd bilde A")).2.1 ("A") (by decide)⟩

end Kunstlotteri
